import Mathlib

/-!
Verification of the Game-of-Life simulator from
`notebooks/quickstart/game_of_life_simulator.ipynb`.

The notebook state is a 2-D boolean/0-1 integer numpy array; we embed a
board as `List (List Bool)` (row-major, like the numpy array).  The cell
update is

```
def single_step(X):
    nbrs_count = convolve2d(X, np.ones((3, 3)), mode=same, boundary=wrap) - X   # source has the two modes as string literals
    return (nbrs_count == 3) | (X & (nbrs_count == 2))
```

`convolve2d` with a 3x3 all-ones kernel, mode same and boundary wrap
computes at (i, j) the sum of the nine cells `X[(i+a) mod h, (j+b) mod w]`
for `a, b` in `{-1, 0, 1}` (circular indexing).  We embed that sum as
`convWrap` and the cell update as `single_step`.
-/

namespace GoL

/-- A board: list of rows of cells (`true` = live), mirroring a 2-D numpy
array of booleans / 0-1 integers. -/
abbrev Grid := List (List Bool)

/-- Numeric value of a cell, as numpy coerces booleans in arithmetic. -/
def b2i (b : Bool) : Nat := if b then 1 else 0

/-- Entry `cell X i j` at row `i`, column `j` (dead outside the array,
used only at valid indices). -/
def cell (X : Grid) (i j : Nat) : Bool :=
  (X.getD i []).getD j false

/-- Height of the array. -/
def height (X : Grid) : Nat := X.length

/-- Width of the array (length of row 0; all rows for a rectangular array). -/
def width (X : Grid) : Nat := (X.getD 0 []).length

/-- The array is rectangular: every row has length `width X`. -/
def Rect (X : Grid) : Prop := ∀ row ∈ X, row.length = width X

instance (X : Grid) : Decidable (Rect X) := by
  unfold Rect; infer_instance

/-- Value of `convolve2d(X, np.ones((3,3)), mode=same, boundary=wrap)` at (i, j):
the sum of the nine circularly-indexed cells around (i, j).
`(i + h - 1 + a) % h` for `a = 0, 1, 2` is `(i - 1) mod h`, `i mod h`,
`(i + 1) mod h`. -/
def convWrap (X : Grid) (i j : Nat) : Nat :=
  let h := height X
  let w := width X
  b2i (cell X ((i + h - 1) % h) ((j + w - 1) % w)) +
  b2i (cell X ((i + h - 1) % h) (j % w)) +
  b2i (cell X ((i + h - 1) % h) ((j + 1) % w)) +
  b2i (cell X (i % h) ((j + w - 1) % w)) +
  b2i (cell X (i % h) (j % w)) +
  b2i (cell X (i % h) ((j + 1) % w)) +
  b2i (cell X ((i + 1) % h) ((j + w - 1) % w)) +
  b2i (cell X ((i + 1) % h) (j % w)) +
  b2i (cell X ((i + 1) % h) ((j + 1) % w))

/-- The per-cell update of `single_step`:
`nbrs_count = convolve2d(...) - X` and then
`(nbrs_count == 3) | (X & (nbrs_count == 2))`. -/
def stepCell (X : Grid) (i j : Nat) : Bool :=
  let nbrs_count := convWrap X i j - b2i (cell X i j)
  decide (nbrs_count = 3) || (cell X i j && decide (nbrs_count = 2))

/-- Next board `single_step(X)`.  The result has the same shape as
`X`; each entry is the Conway update of the corresponding cell. -/
def single_step (X : Grid) : Grid :=
  (List.range X.length).map fun i =>
    (List.range (X.getD i []).length).map fun j => stepCell X i j

/-! ### Spec-side toroidal neighbor count

The claims speak of the "toroidal 8-neighbor live count" of a cell: the
number of live cells among the eight positions obtained by adding each
nonzero offset in `{-1,0,1} × {-1,0,1}` to `(i, j)`, modulo the board
dimensions. -/

/-- Circular index `(i + d) mod n`, computed over the integers. -/
def wrapIdx (n i : Nat) (d : Int) : Nat := (((i : Int) + d) % (n : Int)).toNat

/-- The eight nonzero offsets of the Moore neighborhood. -/
def offsets8 : List (Int × Int) :=
  [(-1, -1), (-1, 0), (-1, 1), (0, -1), (0, 1), (1, -1), (1, 0), (1, 1)]

/-- Toroidal 8-neighbor live count of cell `(i, j)`. -/
def nbrs8 (X : Grid) (i j : Nat) : Nat :=
  (offsets8.map fun p =>
    b2i (cell X (wrapIdx (height X) i p.1) (wrapIdx (width X) j p.2))).sum

/-! ### The simulator

```
glider = [[1, 0, 0], [0, 1, 1], [1, 1, 0]]

class GameOfLifeSimple(object):
    def __init__(self, pattern=np.array(glider, dtype=int), padding=5):
        self.time = 0
        self.board = hv.Image(np.pad(pattern, padding, constant))   # constant is a string literal in the source

    def step(self):
        data = single_step(self.board.data)
        self.board.data = data
        self.time += 1
        return hv.Image(data)

    def run_until(self, time):
        times = range(self.time, time)
        for t in times:
            state = self.step()
        return state if times else hv.Image(self.board.data)
```

An `hv.Image` is modelled by the array it wraps, so `step` and `run_until`
return the board they would display.  `range(self.time, time)` has
`max(0, time - self.time)` elements, so `run_until` performs
`(time - self.time).toNat` steps; when it performs none it returns an
image of the unchanged current board. -/

/-- The seed pattern `[[1, 0, 0], [0, 1, 1], [1, 1, 0]]`. -/
def glider : Grid := [[true, false, false], [false, true, true], [true, true, false]]

/-- Model of `np.pad(pattern, p, constant)`: `p` rings of dead cells around the
pattern (`p` all-dead rows above and below, `p` dead columns on each side). -/
def pad (P : Grid) (p : Nat) : Grid :=
  let w := width P
  let zrow := List.replicate (w + 2 * p) false
  List.replicate p zrow ++
    P.map (fun row => List.replicate p false ++ row ++ List.replicate p false) ++
    List.replicate p zrow

/-- The simulator state: the integer time counter and the board. -/
structure GameOfLifeSimple where
  time : Int
  board : Grid

/-- Constructor `GameOfLifeSimple.__init__`. -/
def GameOfLifeSimple.init (pattern : Grid) (padding : Nat) : GameOfLifeSimple :=
  { time := 0, board := pad pattern padding }

/-- Method `GameOfLifeSimple.step`: advance the board by one `single_step`,
increment the time, return (new state, displayed image data). -/
def GameOfLifeSimple.step (s : GameOfLifeSimple) : GameOfLifeSimple × Grid :=
  let data := single_step s.board
  ({ time := s.time + 1, board := data }, data)

/-- The state after `n` calls of `step` (the `for` loop body of `run_until`). -/
def stepN (s : GameOfLifeSimple) : Nat → GameOfLifeSimple
  | 0 => s
  | n + 1 => stepN s.step.1 n

/-- Method `GameOfLifeSimple.run_until`: perform one `step` per element of
`range(self.time, time)` and return the final state together with the
image data the method returns (the image from the last step, or an image
of the current board when no step ran — in both cases the final board). -/
def GameOfLifeSimple.run_until (s : GameOfLifeSimple) (t : Int) : GameOfLifeSimple × Grid :=
  let s2 := stepN s (t - s.time).toNat
  (s2, s2.board)

/-- Iterate `single_step` on a board `n` times. -/
def iterSteps : Nat → Grid → Grid
  | 0, X => X
  | n + 1, X => iterSteps n (single_step X)

/-! ### Symmetries and translation (used by the claims on the spec) -/

/-- Horizontal reflection: reverse every row. -/
def reflectH (X : Grid) : Grid := X.map List.reverse

/-- Vertical reflection: reverse the order of the rows. -/
def reflectV (X : Grid) : Grid := X.reverse

/-- Clockwise quarter-turn of a square board:
entry `(i, j)` of the result is entry `(n - 1 - j, i)` of the input. -/
def rotate90 (X : Grid) : Grid :=
  (List.range X.length).map fun i =>
    (List.range X.length).map fun j => cell X (X.length - 1 - j) i

/-- The board translated one row down and one column to the right,
with the new first row and first column dead. -/
def translateDR (X : Grid) : Grid :=
  (List.range X.length).map fun i =>
    (List.range (X.getD i []).length).map fun j =>
      if i = 0 ∨ j = 0 then false else cell X (i - 1) (j - 1)

/-! ### Heap model for the purity claim

Numpy arrays live on a heap (a list of arrays); a reference is an index.
Every operation in the body of `single_step` (`convolve2d`, `-`, `==`,
`&`, `|`) returns a freshly allocated array and writes none of its
operands, so the call as a whole computes `single_step` of the array
referenced by the argument and allocates the result at a fresh
reference, leaving every existing heap cell untouched. -/

/-- Calling `single_step` on the array at reference `x`: the heap after
the call and the reference holding the result. -/
def single_stepCall (H : List Grid) (x : Nat) : List Grid × Nat :=
  (H ++ [single_step (H.getD x [])], H.length)

/-! ### Structural lemmas -/

theorem getD_map_range {α : Type} (f : Nat → α) {n i : Nat} (d : α) (h : i < n) :
    ((List.range n).map f).getD i d = f i := by
  rw [List.getD_eq_getElem?_getD, List.getElem?_map, List.getElem?_range h]
  rfl

theorem getD_replicate_self {α : Type} (n i : Nat) (a : α) :
    (List.replicate n a).getD i a = a := by
  rw [List.getD_eq_getElem?_getD, List.getElem?_replicate]
  split <;> rfl

theorem length_single_step (X : Grid) : (single_step X).length = X.length := by
  simp [single_step]

theorem getD_single_step (X : Grid) {i : Nat} (hi : i < X.length) :
    (single_step X).getD i [] =
      (List.range (X.getD i []).length).map fun j => stepCell X i j := by
  unfold single_step
  exact getD_map_range _ _ hi

theorem row_length_single_step (X : Grid) {i : Nat} (hi : i < X.length) :
    ((single_step X).getD i []).length = (X.getD i []).length := by
  rw [getD_single_step X hi]
  simp

theorem cell_single_step (X : Grid) {i j : Nat} (hi : i < X.length)
    (hj : j < (X.getD i []).length) :
    cell (single_step X) i j = stepCell X i j := by
  unfold cell
  rw [getD_single_step X hi, getD_map_range _ _ hj]

/-- Two boards with the same shape and the same cells are equal. -/
theorem grid_ext {A B : Grid} (hlen : A.length = B.length)
    (hrow : ∀ i, i < A.length → (A.getD i []).length = (B.getD i []).length)
    (hcell : ∀ i j, i < A.length → j < (A.getD i []).length → cell A i j = cell B i j) :
    A = B := by
  refine List.ext_getElem hlen fun i h1 h2 => ?_
  have hrA : A.getD i [] = A[i] := List.getD_eq_getElem A [] h1
  have hrB : B.getD i [] = B[i] := List.getD_eq_getElem B [] h2
  refine List.ext_getElem ?_ fun j hj1 hj2 => ?_
  · have := hrow i h1
    rw [hrA, hrB] at this
    exact this
  · have hc := hcell i j h1 (by rw [hrA]; exact hj1)
    unfold cell at hc
    rw [hrA, hrB] at hc
    rw [List.getD_eq_getElem _ _ hj1, List.getD_eq_getElem _ _ hj2] at hc
    exact hc

theorem row_length_of_rect {X : Grid} (hR : Rect X) {i : Nat} (hi : i < X.length) :
    (X.getD i []).length = width X := by
  rw [List.getD_eq_getElem X [] hi]
  exact hR X[i] (List.getElem_mem hi)

/-! ### Modular index arithmetic -/

theorem wrapIdx_zero (n i : Nat) : wrapIdx n i 0 = i % n := by
  unfold wrapIdx
  rw [Int.add_zero, ← Int.natCast_mod, Int.toNat_natCast]

theorem wrapIdx_one (n i : Nat) : wrapIdx n i 1 = (i + 1) % n := by
  unfold wrapIdx
  have he : (i : Int) + 1 = ((i + 1 : Nat) : Int) := by omega
  rw [he, ← Int.natCast_mod, Int.toNat_natCast]

theorem wrapIdx_negOne (n i : Nat) : wrapIdx n i (-1) = (i + n - 1) % n := by
  unfold wrapIdx
  rcases Nat.eq_zero_or_pos n with hn | hn
  · subst hn
    simp only [Nat.cast_zero, Int.emod_zero]
    omega
  · have he : (i : Int) + -1 = ((i + n - 1 : Nat) : Int) + (n : Int) * -1 := by omega
    rw [he, Int.add_mul_emod_self_left, ← Int.natCast_mod, Int.toNat_natCast]

theorem mod_succ_eq {h i : Nat} (hi : i < h) :
    (i + 1) % h = if i + 1 = h then 0 else i + 1 := by
  split
  · simp_all [Nat.mod_self]
  · exact Nat.mod_eq_of_lt (by omega)

theorem mod_pred_eq {h i : Nat} (hi : i < h) :
    (i + h - 1) % h = if i = 0 then h - 1 else i - 1 := by
  split
  · subst_eqs
    simp only [Nat.zero_add]
    exact Nat.mod_eq_of_lt (by omega)
  · have he : i + h - 1 = (i - 1) + h := by omega
    rw [he, Nat.add_mod_right]
    exact Nat.mod_eq_of_lt (by omega)

/-! ### The convolution counts toroidal neighbors -/

/-- Value of `convolve2d(X, ones((3,3)), same, wrap) - X` at a valid index:
the toroidal 8-neighbor live count. -/
theorem conv_sub_center (X : Grid) {i j : Nat} (hi : i < height X) (hj : j < width X) :
    convWrap X i j - b2i (cell X i j) = nbrs8 X i j := by
  have hmi : i % height X = i := Nat.mod_eq_of_lt hi
  have hmj : j % width X = j := Nat.mod_eq_of_lt hj
  simp only [convWrap, nbrs8, offsets8, List.map_cons, List.map_nil, List.sum_cons,
    List.sum_nil, wrapIdx_zero, wrapIdx_one, wrapIdx_negOne, hmi, hmj]
  omega

/-! ### Shape preservation -/

theorem width_single_step (X : Grid) : width (single_step X) = width X := by
  cases X with
  | nil => rfl
  | cons r t => exact row_length_single_step (r :: t) (by simp)

theorem shape_single_step (X : Grid) :
    (single_step X).map List.length = X.map List.length := by
  refine List.ext_getElem (by simp [single_step]) fun i h1 h2 => ?_
  have hi : i < X.length := by simpa using h2
  simp only [List.getElem_map]
  have hlen := row_length_single_step X hi
  rw [List.getD_eq_getElem _ _ (by rwa [length_single_step]),
    List.getD_eq_getElem _ _ hi] at hlen
  exact hlen

theorem rect_single_step {X : Grid} (hR : Rect X) : Rect (single_step X) := by
  intro row hrow
  obtain ⟨k, hk, hkeq⟩ := List.getElem_of_mem hrow
  have hk2 : k < X.length := by rwa [length_single_step] at hk
  rw [← hkeq, ← List.getD_eq_getElem _ [] hk, row_length_single_step X hk2,
    row_length_of_rect hR hk2, width_single_step]

/-! ### Simulator state lemmas -/

theorem stepN_board (s : GameOfLifeSimple) (n : Nat) :
    (stepN s n).board = iterSteps n s.board := by
  induction n generalizing s with
  | zero => rfl
  | succ n ih => exact ih s.step.1

theorem stepN_time (s : GameOfLifeSimple) (n : Nat) :
    (stepN s n).time = s.time + n := by
  induction n generalizing s with
  | zero => simp [stepN]
  | succ n ih =>
    show (stepN s.step.1 n).time = s.time + (n + 1 : Nat)
    rw [ih s.step.1]
    show s.time + 1 + (n : Int) = s.time + ((n : Nat) + 1 : Nat)
    omega

theorem shape_iterSteps (n : Nat) (X : Grid) :
    (iterSteps n X).map List.length = X.map List.length := by
  induction n generalizing X with
  | zero => rfl
  | succ n ih => rw [show iterSteps (n + 1) X = iterSteps n (single_step X) from rfl,
      ih (single_step X), shape_single_step]

/-! ### Padding lemmas -/

theorem getD_replicate_lt {α : Type} {n i : Nat} (a d : α) (h : i < n) :
    (List.replicate n a).getD i d = a := by
  rw [List.getD_eq_getElem?_getD, List.getElem?_replicate, if_pos h]
  rfl

theorem getD_map_lt {α β : Type} (f : α → β) {P : List α} {k : Nat} (d : β) (e : α)
    (hk : k < P.length) :
    (P.map f).getD k d = f (P.getD k e) := by
  rw [List.getD_eq_getElem?_getD, List.getElem?_map,
    List.getElem?_eq_getElem hk, List.getD_eq_getElem _ _ hk]
  rfl

theorem length_pad (P : Grid) (p : Nat) : (pad P p).length = P.length + 2 * p := by
  simp [pad]
  omega

theorem getD_pad_top {P : Grid} {p i : Nat} (hi : i < p) :
    (pad P p).getD i [] = List.replicate (width P + 2 * p) false := by
  unfold pad
  rw [List.getD_append _ _ _ _ (by simp; omega), List.getD_append _ _ _ _ (by simpa),
    getD_replicate_lt _ _ hi]

theorem getD_pad_mid {P : Grid} {p i : Nat} (hi1 : p ≤ i) (hi2 : i < p + P.length) :
    (pad P p).getD i [] =
      List.replicate p false ++ P.getD (i - p) [] ++ List.replicate p false := by
  unfold pad
  rw [List.getD_append _ _ _ _ (by simp; omega),
    List.getD_append_right _ _ _ _ (by simpa),
    getD_map_lt _ _ [] (by simp; omega)]
  simp

theorem getD_pad_bot {P : Grid} {p i : Nat} (hi1 : p + P.length ≤ i)
    (hi2 : i < p + P.length + p) :
    (pad P p).getD i [] = List.replicate (width P + 2 * p) false := by
  unfold pad
  rw [List.getD_append_right _ _ _ _ (by simp; omega),
    getD_replicate_lt _ _ (by simp; omega)]

theorem getD_pad_out {P : Grid} {p i : Nat} (hi : p + P.length + p ≤ i) :
    (pad P p).getD i [] = [] := by
  apply List.getD_eq_default
  rw [length_pad]
  omega

/-- Pointwise description of `np.pad(P, p, constant)`: the original cells,
shifted by `p` in both coordinates, inside a border of dead cells. -/
theorem cell_pad {P : Grid} (hR : Rect P) (p i j : Nat) :
    cell (pad P p) i j =
      if p ≤ i ∧ i < p + P.length ∧ p ≤ j ∧ j < p + width P then
        cell P (i - p) (j - p)
      else false := by
  unfold cell
  rcases Nat.lt_or_ge i p with hi | hi
  · rw [getD_pad_top hi, getD_replicate_self, if_neg (by omega)]
  rcases Nat.lt_or_ge i (p + P.length) with hi2 | hi2
  · rw [getD_pad_mid hi hi2]
    have hrow : (P.getD (i - p) []).length = width P :=
      row_length_of_rect hR (by omega)
    have hlen2 : (List.replicate p false ++ P.getD (i - p) []).length = p + width P := by
      rw [List.length_append, List.length_replicate, hrow]
    rcases Nat.lt_or_ge j p with hj | hj
    · rw [List.getD_append _ _ _ _ (by omega),
        List.getD_append _ _ _ _ (by simpa), getD_replicate_self,
        if_neg (by omega)]
    rcases Nat.lt_or_ge j (p + width P) with hj2 | hj2
    · rw [List.getD_append _ _ _ _ (by omega),
        List.getD_append_right _ _ _ _ (by simpa),
        if_pos (by omega), List.length_replicate]
    · rw [List.getD_append_right _ _ _ _ (by omega),
        getD_replicate_self, if_neg (by omega)]
  rcases Nat.lt_or_ge i (p + P.length + p) with hi3 | hi3
  · rw [getD_pad_bot hi2 hi3, getD_replicate_self, if_neg (by omega)]
  · rw [getD_pad_out hi3, if_neg (by omega)]
    rfl

theorem width_pad (P : Grid) (p : Nat) : width (pad P p) = width P + 2 * p := by
  show ((pad P p).getD 0 []).length = width P + 2 * p
  rcases Nat.eq_zero_or_pos p with hp | hp
  · subst hp
    cases P with
    | nil => rfl
    | cons r t =>
      rw [getD_pad_mid (by omega) (by simp)]
      simp [width]
  · rw [getD_pad_top hp]
    simp

theorem cell_zeros (h w i j : Nat) :
    cell (List.replicate h (List.replicate w false)) i j = false := by
  unfold cell
  rw [List.getD_eq_getElem?_getD (List.replicate h (List.replicate w false)) i,
    List.getElem?_replicate]
  split
  · simp only [Option.getD_some]
    exact getD_replicate_self w j false
  · rfl

theorem run_until_fst (s : GameOfLifeSimple) (t : Int) :
    (s.run_until t).1 = stepN s (t - s.time).toNat := rfl

theorem run_until_snd (s : GameOfLifeSimple) (t : Int) :
    (s.run_until t).2 = (stepN s (t - s.time).toNat).board := rfl

/-! ### The claims -/

/-- C1: for every rectangular 2-D board and every cell `(i, j)` of it,
`single_step` implements the standard Conway rule with wrap-around
(toroidal) neighbor counting: the result cell is live iff its toroidal
8-neighbor live count is exactly 3, or the cell was live and that count
is exactly 2; all other cells are dead. -/
theorem C1_single_step_conway_toroidal (X : Grid) (hR : Rect X) (i j : Nat)
    (hi : i < height X) (hj : j < width X) :
    cell (single_step X) i j = true ↔
      nbrs8 X i j = 3 ∨ (cell X i j = true ∧ nbrs8 X i j = 2) := by
  have hj2 : j < (X.getD i []).length := by
    rw [row_length_of_rect hR hi]
    exact hj
  rw [cell_single_step X hi hj2]
  simp only [stepCell, conv_sub_center X hi hj]
  simp [Bool.or_eq_true, Bool.and_eq_true, decide_eq_true_eq]

theorem C1_single_step_conway_toroidal_witness :
    Rect glider ∧ 1 < height glider ∧ 1 < width glider ∧
    (cell (single_step glider) 1 1 = true ↔
      nbrs8 glider 1 1 = 3 ∨ (cell glider 1 1 = true ∧ nbrs8 glider 1 1 = 2)) :=
  ⟨by decide, by decide, by decide,
    C1_single_step_conway_toroidal glider (by decide) 1 1 (by decide) (by decide)⟩

/-- C2: construction puts the padded pattern on the board (the seed shifted
by `padding` inside an all-dead border, with the padded dimensions) and sets
the time to 0; each `step` replaces the board by `single_step` of it,
increments the time by exactly 1, and returns an image of the new board. -/
theorem C2_construction_and_step (P : Grid) (p : Nat) (hR : Rect P)
    (s : GameOfLifeSimple) :
    (GameOfLifeSimple.init P p).time = 0 ∧
    (GameOfLifeSimple.init P p).board = pad P p ∧
    (pad P p).length = P.length + 2 * p ∧
    width (pad P p) = width P + 2 * p ∧
    (∀ i j : Nat,
      cell (pad P p) i j =
        if p ≤ i ∧ i < p + P.length ∧ p ≤ j ∧ j < p + width P then
          cell P (i - p) (j - p)
        else false) ∧
    s.step.1.board = single_step s.board ∧
    s.step.1.time = s.time + 1 ∧
    s.step.2 = single_step s.board :=
  ⟨rfl, rfl, length_pad P p, width_pad P p, cell_pad hR p, rfl, rfl, rfl⟩

theorem C2_construction_and_step_witness :
    Rect glider ∧ (GameOfLifeSimple.init glider 1).time = 0 :=
  ⟨by decide,
    (C2_construction_and_step glider 1 (by decide) (GameOfLifeSimple.init glider 1)).1⟩

/-- C3: if `t` exceeds the current time, `run_until t` applies
`single_step` exactly `t - time` times, sets the time counter to `t`, and
returns the board after those steps; if `t ≤ time` (negative `t`
included) it performs zero steps, leaves the state unchanged and returns
the current board; the time counter never decreases. -/
theorem C3_run_until_behavior (s : GameOfLifeSimple) (t : Int) :
    (s.time < t →
      (s.run_until t).1.board = iterSteps (t - s.time).toNat s.board ∧
      (s.run_until t).1.time = t ∧
      (s.run_until t).2 = iterSteps (t - s.time).toNat s.board) ∧
    (t ≤ s.time → s.run_until t = (s, s.board)) ∧
    s.time ≤ (s.run_until t).1.time := by
  refine ⟨fun h => ?_, fun h => ?_, ?_⟩
  · rw [run_until_fst, run_until_snd, stepN_board, stepN_time]
    refine ⟨rfl, by omega, rfl⟩
  · have h0 : (t - s.time).toNat = 0 := by omega
    have he : s.run_until t =
        (stepN s (t - s.time).toNat, (stepN s (t - s.time).toNat).board) := rfl
    rw [he, h0]
    rfl
  · rw [run_until_fst, stepN_time]
    omega

theorem C3_run_until_behavior_witness :
    (GameOfLifeSimple.init glider 1).time < 2 ∧
    ((GameOfLifeSimple.init glider 1).run_until 2).1.time = 2 ∧
    (-1 : Int) ≤ (GameOfLifeSimple.init glider 1).time ∧
    (GameOfLifeSimple.init glider 1).run_until (-1) =
      (GameOfLifeSimple.init glider 1, (GameOfLifeSimple.init glider 1).board) :=
  ⟨by decide, ((C3_run_until_behavior (GameOfLifeSimple.init glider 1) 2).1 (by decide)).2.1,
   by decide, (C3_run_until_behavior (GameOfLifeSimple.init glider 1) (-1)).2.1 (by decide)⟩

/-- C4: on the 13x13 board obtained by padding the glider with 5 dead
cells on every side, four applications of `single_step` produce exactly
the original board translated one row down and one column to the right,
every other cell dead. -/
theorem C4_glider_four_steps :
    iterSteps 4 (pad glider 5) = translateDR (pad glider 5) := by decide

/-- C5: `single_step` is shape-preserving (same number of rows and the
same length for every row), and consequently the simulator board keeps
the shape fixed at construction across `step` and `run_until`. -/
theorem C5_shape_invariant (X : Grid) (s : GameOfLifeSimple) (t : Int) :
    (single_step X).length = X.length ∧
    (single_step X).map List.length = X.map List.length ∧
    s.step.1.board.map List.length = s.board.map List.length ∧
    (s.run_until t).1.board.map List.length = s.board.map List.length := by
  refine ⟨length_single_step X, shape_single_step X, shape_single_step s.board, ?_⟩
  rw [run_until_fst, stepN_board, shape_iterSteps]

/-- C6: the all-dead grid of any shape is a fixed point of `single_step`. -/
theorem C6_all_dead_fixed_point (h w : Nat) :
    single_step (List.replicate h (List.replicate w false)) =
      List.replicate h (List.replicate w false) := by
  apply grid_ext (length_single_step _)
  · intro i hi
    rw [length_single_step] at hi
    exact row_length_single_step _ hi
  · intro i j hi hj
    rw [length_single_step] at hi
    rw [row_length_single_step _ hi] at hj
    rw [cell_single_step _ hi hj]
    simp [stepCell, convWrap, cell_zeros, b2i]

/-- C8: `single_step` is pure: calling it on the array at reference `x`
of a heap of numpy arrays leaves every existing array — the input
included — bit-for-bit unchanged, and delivers its result in a freshly
allocated array (a reference no existing array has) holding
`single_step` of the input; no error: the call always returns. -/
theorem C8_single_step_pure (H : List Grid) (x : Nat) (hx : x < H.length) :
    (∀ r, r < H.length → (single_stepCall H x).1.getD r [] = H.getD r []) ∧
    H.length ≤ (single_stepCall H x).2 ∧
    (single_stepCall H x).1.getD (single_stepCall H x).2 [] =
      single_step (H.getD x []) ∧
    (single_stepCall H x).1.getD x [] = H.getD x [] := by
  refine ⟨fun r hr => List.getD_append _ _ _ _ hr, le_refl _, ?_,
    List.getD_append _ _ _ _ hx⟩
  show (H ++ [single_step (H.getD x [])]).getD H.length [] = _
  rw [List.getD_append_right _ _ _ _ (le_refl _), Nat.sub_self]
  rfl

theorem C8_single_step_pure_witness :
    0 < [glider].length ∧
    (single_stepCall [glider] 0).1.getD 0 [] = [glider].getD 0 [] :=
  ⟨by decide, (C8_single_step_pure [glider] 0 (by decide)).1 0 (by decide)⟩

/-- C9: the transition is deterministic and history-independent — two
simulator states with equal boards, whatever their time counters, step to
equal next boards and return equal images, and `single_step` of equal
grids is equal. -/
theorem C9_step_deterministic (s1 s2 : GameOfLifeSimple)
    (hb : s1.board = s2.board) :
    s1.step.1.board = s2.step.1.board ∧ s1.step.2 = s2.step.2 ∧
    single_step s1.board = single_step s2.board := by
  refine ⟨?_, ?_, ?_⟩ <;> simp [GameOfLifeSimple.step, hb]

theorem C9_step_deterministic_witness :
    (GameOfLifeSimple.mk 0 glider).board = (GameOfLifeSimple.mk 7 glider).board ∧
    (GameOfLifeSimple.mk 0 glider).step.1.board =
      (GameOfLifeSimple.mk 7 glider).step.1.board :=
  ⟨rfl, (C9_step_deterministic (GameOfLifeSimple.mk 0 glider)
    (GameOfLifeSimple.mk 7 glider) rfl).1⟩

/-- C10: `run_until` does not validate its argument; called with a
negative time on any reachable state (time counter ≥ 0) it simply
performs zero steps and returns the unchanged state and current board —
the simulator raises no error of its own. -/
theorem C10_negative_time_no_validation (s : GameOfLifeSimple) (t : Int)
    (hs : 0 ≤ s.time) (ht : t < 0) :
    s.run_until t = (s, s.board) := by
  have h0 : (t - s.time).toNat = 0 := by omega
  have he : s.run_until t =
      (stepN s (t - s.time).toNat, (stepN s (t - s.time).toNat).board) := rfl
  rw [he, h0]
  rfl

/-! ### Symmetry lemmas for C7 -/

theorem refl_mod_pred {w j : Nat} (hj : j < w) :
    w - 1 - ((j + w - 1) % w) = (w - 1 - j + 1) % w := by
  rw [mod_pred_eq hj, mod_succ_eq (show w - 1 - j < w by omega)]
  split_ifs <;> omega

theorem refl_mod_self {w j : Nat} (hj : j < w) :
    w - 1 - (j % w) = (w - 1 - j) % w := by
  rw [Nat.mod_eq_of_lt hj, Nat.mod_eq_of_lt (show w - 1 - j < w by omega)]

theorem refl_mod_succ {w j : Nat} (hj : j < w) :
    w - 1 - ((j + 1) % w) = (w - 1 - j + w - 1) % w := by
  rw [mod_succ_eq hj, mod_pred_eq (show w - 1 - j < w by omega)]
  split_ifs <;> omega

theorem length_reflectV (X : Grid) : (reflectV X).length = X.length :=
  List.length_reverse X

theorem getD_reflectV {X : Grid} {i : Nat} (hi : i < X.length) :
    (reflectV X).getD i [] = X.getD (X.length - 1 - i) [] := by
  unfold reflectV
  rw [List.getD_eq_getElem _ [] (by rwa [List.length_reverse]),
    List.getElem_reverse, ← List.getD_eq_getElem _ [] (by omega)]

theorem cell_reflectV {X : Grid} {i : Nat} (hi : i < X.length) (j : Nat) :
    cell (reflectV X) i j = cell X (X.length - 1 - i) j := by
  unfold cell
  rw [getD_reflectV hi]

theorem width_reflectV {X : Grid} (hR : Rect X) (hh : 0 < X.length) :
    ((reflectV X).getD 0 []).length = (X.getD 0 []).length := by
  rw [getD_reflectV hh]
  exact (row_length_of_rect hR (by omega)).trans (row_length_of_rect hR hh).symm

theorem convWrap_reflectV {X : Grid} (hR : Rect X) {i : Nat} (j : Nat)
    (hi : i < X.length) :
    convWrap (reflectV X) i j = convWrap X (X.length - 1 - i) j := by
  have hh : 0 < X.length := by omega
  have m1 : (i + X.length - 1) % X.length < X.length := Nat.mod_lt _ hh
  have m2 : i % X.length < X.length := Nat.mod_lt _ hh
  have m3 : (i + 1) % X.length < X.length := Nat.mod_lt _ hh
  simp only [convWrap, height, width, length_reflectV, width_reflectV hR hh]
  simp only [cell_reflectV m1, cell_reflectV m2, cell_reflectV m3]
  rw [refl_mod_pred hi, refl_mod_self hi, refl_mod_succ hi]
  omega

theorem stepCell_reflectV {X : Grid} (hR : Rect X) {i : Nat} (j : Nat)
    (hi : i < X.length) :
    stepCell (reflectV X) i j = stepCell X (X.length - 1 - i) j := by
  unfold stepCell
  rw [convWrap_reflectV hR j hi, cell_reflectV hi]

theorem single_step_reflectV {X : Grid} (hR : Rect X) :
    single_step (reflectV X) = reflectV (single_step X) := by
  have hlenL : (single_step (reflectV X)).length = X.length := by
    rw [length_single_step, length_reflectV]
  have hlenR : (reflectV (single_step X)).length = X.length := by
    rw [length_reflectV, length_single_step]
  apply grid_ext (by rw [hlenL, hlenR])
  · intro i hi
    rw [hlenL] at hi
    have hiV : i < (reflectV X).length := by rw [length_reflectV]; exact hi
    have hiS : i < (single_step X).length := by rw [length_single_step]; exact hi
    rw [row_length_single_step _ hiV, getD_reflectV hi,
      getD_reflectV (X := single_step X) hiS, length_single_step,
      row_length_single_step _ (show X.length - 1 - i < X.length by omega)]
  · intro i j hi hj
    rw [hlenL] at hi
    have hiV : i < (reflectV X).length := by rw [length_reflectV]; exact hi
    have hiS : i < (single_step X).length := by rw [length_single_step]; exact hi
    rw [row_length_single_step _ hiV] at hj
    rw [cell_single_step _ hiV hj, stepCell_reflectV hR j hi,
      cell_reflectV (X := single_step X) hiS j, length_single_step]
    rw [getD_reflectV hi] at hj
    exact (cell_single_step X (by omega) hj).symm

theorem length_reflectH (X : Grid) : (reflectH X).length = X.length :=
  List.length_map X List.reverse

theorem getD_reflectH {X : Grid} {i : Nat} (hi : i < X.length) :
    (reflectH X).getD i [] = (X.getD i []).reverse :=
  getD_map_lt List.reverse [] [] hi

theorem width_reflectH (X : Grid) :
    ((reflectH X).getD 0 []).length = (X.getD 0 []).length := by
  cases X with
  | nil => rfl
  | cons r t => rw [getD_reflectH (by simp), List.length_reverse]

theorem cell_reflectH {X : Grid} (hR : Rect X) {j : Nat}
    (hj : j < (X.getD 0 []).length) (i : Nat) :
    cell (reflectH X) i j = cell X i ((X.getD 0 []).length - 1 - j) := by
  unfold cell
  rcases Nat.lt_or_ge i X.length with hi | hi
  · rw [getD_reflectH hi]
    have hrow : (X.getD i []).length = (X.getD 0 []).length :=
      row_length_of_rect hR hi
    rw [List.getD_eq_getElem _ _ (by rw [List.length_reverse, hrow]; omega),
      List.getElem_reverse, ← List.getD_eq_getElem _ _ (by rw [hrow]; omega), hrow]
  · rw [List.getD_eq_default (reflectH X) _ (by rw [length_reflectH]; omega),
      List.getD_eq_default X _ hi]
    rfl

theorem convWrap_reflectH {X : Grid} (hR : Rect X) (i : Nat) {j : Nat}
    (hj : j < (X.getD 0 []).length) :
    convWrap (reflectH X) i j = convWrap X i ((X.getD 0 []).length - 1 - j) := by
  have hw : 0 < (X.getD 0 []).length := by omega
  have m1 : (j + (X.getD 0 []).length - 1) % (X.getD 0 []).length <
      (X.getD 0 []).length := Nat.mod_lt _ hw
  have m2 : j % (X.getD 0 []).length < (X.getD 0 []).length := Nat.mod_lt _ hw
  have m3 : (j + 1) % (X.getD 0 []).length < (X.getD 0 []).length := Nat.mod_lt _ hw
  simp only [convWrap, height, width, length_reflectH, width_reflectH]
  simp only [cell_reflectH hR m1, cell_reflectH hR m2, cell_reflectH hR m3]
  rw [refl_mod_pred hj, refl_mod_self hj, refl_mod_succ hj]
  omega

theorem stepCell_reflectH {X : Grid} (hR : Rect X) (i : Nat) {j : Nat}
    (hj : j < (X.getD 0 []).length) :
    stepCell (reflectH X) i j = stepCell X i ((X.getD 0 []).length - 1 - j) := by
  unfold stepCell
  rw [convWrap_reflectH hR i hj, cell_reflectH hR hj]

theorem single_step_reflectH {X : Grid} (hR : Rect X) :
    single_step (reflectH X) = reflectH (single_step X) := by
  have hlenL : (single_step (reflectH X)).length = X.length := by
    rw [length_single_step, length_reflectH]
  have hlenR : (reflectH (single_step X)).length = X.length := by
    rw [length_reflectH, length_single_step]
  apply grid_ext (by rw [hlenL, hlenR])
  · intro i hi
    rw [hlenL] at hi
    have hiH : i < (reflectH X).length := by rw [length_reflectH]; exact hi
    have hiS : i < (single_step X).length := by rw [length_single_step]; exact hi
    rw [row_length_single_step _ hiH, getD_reflectH hi,
      getD_reflectH (X := single_step X) hiS, List.length_reverse,
      List.length_reverse, row_length_single_step _ hi]
  · intro i j hi hj
    rw [hlenL] at hi
    have hiH : i < (reflectH X).length := by rw [length_reflectH]; exact hi
    have hiS : i < (single_step X).length := by rw [length_single_step]; exact hi
    rw [row_length_single_step _ hiH, getD_reflectH hi, List.length_reverse] at hj
    have hjw : j < (X.getD 0 []).length := by
      rwa [row_length_of_rect hR hi] at hj
    have hwidS : ((single_step X).getD 0 []).length = (X.getD 0 []).length :=
      width_single_step X
    rw [cell_single_step _ hiH
        (by rw [getD_reflectH hi, List.length_reverse]; exact hj),
      stepCell_reflectH hR i hjw,
      cell_reflectH (X := single_step X) (rect_single_step hR)
        (by rw [hwidS]; exact hjw) i, hwidS]
    have hrw : (X.getD i []).length = (X.getD 0 []).length :=
      row_length_of_rect hR hi
    exact (cell_single_step X hi (by rw [hrw]; omega)).symm

theorem length_rot (X : Grid) : (rotate90 X).length = X.length := by
  simp [rotate90]

theorem getD_rot {X : Grid} {i : Nat} (hi : i < X.length) :
    (rotate90 X).getD i [] =
      (List.range X.length).map fun j => cell X (X.length - 1 - j) i := by
  unfold rotate90
  exact getD_map_range _ _ hi

theorem cell_rot {X : Grid} (hR : Rect X) (hsq : X.length = (X.getD 0 []).length)
    {j : Nat} (hj : j < X.length) (i : Nat) :
    cell (rotate90 X) i j = cell X (X.length - 1 - j) i := by
  unfold cell
  rcases Nat.lt_or_ge i X.length with hi | hi
  · rw [getD_rot hi, getD_map_range _ _ hj]
    rfl
  · rw [List.getD_eq_default (rotate90 X) _ (by rw [length_rot]; omega)]
    have hrw : (X.getD (X.length - 1 - j) []).length = (X.getD 0 []).length :=
      row_length_of_rect hR (by omega)
    rw [List.getD_eq_default (X.getD (X.length - 1 - j) []) _ (by omega)]
    rfl

theorem width_rot {X : Grid} (hh : 0 < X.length) :
    ((rotate90 X).getD 0 []).length = X.length := by
  rw [getD_rot hh]
  simp

theorem convWrap_rot {X : Grid} (hR : Rect X) (hsq : X.length = (X.getD 0 []).length)
    {j : Nat} (hj : j < X.length) (i : Nat) :
    convWrap (rotate90 X) i j = convWrap X (X.length - 1 - j) i := by
  have hh : 0 < X.length := by omega
  have m1 : (j + X.length - 1) % X.length < X.length := Nat.mod_lt _ hh
  have m2 : j % X.length < X.length := Nat.mod_lt _ hh
  have m3 : (j + 1) % X.length < X.length := Nat.mod_lt _ hh
  simp only [convWrap, height, width, length_rot, width_rot hh, ← hsq]
  simp only [cell_rot hR hsq m1, cell_rot hR hsq m2, cell_rot hR hsq m3]
  rw [refl_mod_pred hj, refl_mod_self hj, refl_mod_succ hj]
  omega

theorem stepCell_rot {X : Grid} (hR : Rect X) (hsq : X.length = (X.getD 0 []).length)
    {j : Nat} (hj : j < X.length) (i : Nat) :
    stepCell (rotate90 X) i j = stepCell X (X.length - 1 - j) i := by
  unfold stepCell
  rw [convWrap_rot hR hsq hj i, cell_rot hR hsq hj i]

theorem single_step_rot {X : Grid} (hR : Rect X)
    (hsq : X.length = (X.getD 0 []).length) :
    single_step (rotate90 X) = rotate90 (single_step X) := by
  have hwidS : ((single_step X).getD 0 []).length = (X.getD 0 []).length :=
    width_single_step X
  have hsqS : (single_step X).length = ((single_step X).getD 0 []).length := by
    rw [length_single_step, hwidS]
    exact hsq
  have hlenL : (single_step (rotate90 X)).length = X.length := by
    rw [length_single_step, length_rot]
  have hlenR : (rotate90 (single_step X)).length = X.length := by
    rw [length_rot, length_single_step]
  apply grid_ext (by rw [hlenL, hlenR])
  · intro i hi
    rw [hlenL] at hi
    have hiR : i < (rotate90 X).length := by rw [length_rot]; exact hi
    have hiS : i < (single_step X).length := by rw [length_single_step]; exact hi
    rw [row_length_single_step _ hiR, getD_rot hi,
      getD_rot (X := single_step X) hiS, length_single_step]
    simp
  · intro i j hi hj
    rw [hlenL] at hi
    have hiR : i < (rotate90 X).length := by rw [length_rot]; exact hi
    have hiS : i < (single_step X).length := by rw [length_single_step]; exact hi
    rw [row_length_single_step _ hiR, getD_rot hi, List.length_map,
      List.length_range] at hj
    rw [cell_single_step _ hiR
        (by rw [getD_rot hi, List.length_map, List.length_range]; exact hj),
      stepCell_rot hR hsq hj i,
      cell_rot (X := single_step X) (rect_single_step hR) hsqS
        (by rw [length_single_step]; exact hj) i, length_single_step]
    have hrw : (X.getD (X.length - 1 - j) []).length = (X.getD 0 []).length :=
      row_length_of_rect hR (by omega)
    exact (cell_single_step X (by omega) (by rw [hrw]; omega)).symm

/-- C7: the rule commutes with the symmetries of the board: for a square
board `single_step` commutes with the quarter-turn `rotate90`, and for
every rectangular board it commutes with horizontal and vertical
reflection. -/
theorem C7_symmetry_invariance (X : Grid) (hR : Rect X) :
    (height X = width X → single_step (rotate90 X) = rotate90 (single_step X)) ∧
    single_step (reflectH X) = reflectH (single_step X) ∧
    single_step (reflectV X) = reflectV (single_step X) :=
  ⟨fun hsq => single_step_rot hR hsq, single_step_reflectH hR,
    single_step_reflectV hR⟩

theorem C7_symmetry_invariance_witness :
    Rect glider ∧ height glider = width glider ∧
    single_step (rotate90 glider) = rotate90 (single_step glider) :=
  ⟨by decide, by decide, (C7_symmetry_invariance glider (by decide)).1 (by decide)⟩

theorem C10_negative_time_no_validation_witness :
    0 ≤ (GameOfLifeSimple.init glider 1).time ∧ (-3 : Int) < 0 ∧
    (GameOfLifeSimple.init glider 1).run_until (-3) =
      (GameOfLifeSimple.init glider 1, (GameOfLifeSimple.init glider 1).board) :=
  ⟨by decide, by decide,
    C10_negative_time_no_validation (GameOfLifeSimple.init glider 1) (-3)
      (by decide) (by decide)⟩

end GoL
